import Mathlib

/-!
Verification of the coin/game-credit admin API (Express routes over MongoDB).

The development shallowly embeds the route handlers of `api/routes/games.js`
(`src/unnamed/part_000`), the case-insensitive revision of
`routes/adminUsers.js` (second document of `src/unnamed/part_000`, the
revision whose header reads "treat usernames case-insensitively everywhere"),
and `api/routes/logins.js` (first document of that file).  MongoDB
collections are embedded as Lean lists, aggregation pipelines as
filter/map/sum programs, and JavaScript string normalization
(`String.trim`, `String.toLowerCase` and the regex replaces of
`normUsernameKey` / `emailLocalFromUsername`) as functions on `List Char`.
-/

/-! ## String normalization layer -/

/-- ASCII whitespace recognized by `String.prototype.trim`. -/
def wsChar (c : Char) : Bool :=
  c == ' ' || c == '\t' || c == '\n' || c == '\r' || c == '\x0b' || c == '\x0c'

/-- Drop whitespace from both ends of a character list (JS `trim`). -/
def trimChars (l : List Char) : List Char :=
  ((l.dropWhile wsChar).reverse.dropWhile wsChar).reverse

/-- JS `String(v).trim()`. -/
def trimS (s : String) : String := ⟨trimChars s.data⟩

/-- ASCII lowercasing of one character (JS `toLowerCase` restricted to ASCII). -/
def lowChar (c : Char) : Char :=
  match c with
  | 'A' => 'a' | 'B' => 'b' | 'C' => 'c' | 'D' => 'd' | 'E' => 'e'
  | 'F' => 'f' | 'G' => 'g' | 'H' => 'h' | 'I' => 'i' | 'J' => 'j'
  | 'K' => 'k' | 'L' => 'l' | 'M' => 'm' | 'N' => 'n' | 'O' => 'o'
  | 'P' => 'p' | 'Q' => 'q' | 'R' => 'r' | 'S' => 's' | 'T' => 't'
  | 'U' => 'u' | 'V' => 'v' | 'W' => 'w' | 'X' => 'x' | 'Y' => 'y'
  | 'Z' => 'z'
  | _ => c

/-- JS `s.toLowerCase()`. -/
def lowerS (s : String) : String := ⟨s.data.map lowChar⟩

/-- The helper `normUsernameKey` of `routes/adminUsers.js`:
`String(v || "").trim().toLowerCase()`. -/
def normKey (s : String) : String := lowerS (trimS s)

/-- Characters kept by `emailLocalFromUsername` after lowercasing:
the regexes `\s+` and `[^a-z0-9]` remove everything outside `a-z0-9`. -/
def goodChar (c : Char) : Bool := ('a' ≤ c && c ≤ 'z') || ('0' ≤ c && c ≤ '9')

/-- The helper `emailLocalFromUsername` of `routes/adminUsers.js`:
trim, lowercase, strip whitespace and non-alphanumerics. -/
def baseLocal (s : String) : String := ⟨(normKey s).data.filter goodChar⟩

/-! ### Facts about the normalization layer -/

theorem dropWhile_dropWhile (p : Char → Bool) :
    ∀ l : List Char, (l.dropWhile p).dropWhile p = l.dropWhile p := by
  intro l
  induction l with
  | nil => rfl
  | cons a l ih =>
    by_cases h : p a
    · simp [List.dropWhile_cons, h, ih]
    · simp [List.dropWhile_cons, h]

theorem dropWhile_suffix_exists (p : Char → Bool) :
    ∀ l : List Char, ∃ s, s ++ l.dropWhile p = l := by
  intro l
  induction l with
  | nil => exact ⟨[], rfl⟩
  | cons a l ih =>
    by_cases h : p a
    · obtain ⟨s, hs⟩ := ih
      exact ⟨a :: s, by simp [List.dropWhile_cons, h, hs]⟩
    · exact ⟨[], by simp [List.dropWhile_cons, h]⟩

theorem dropWhile_head_false (p : Char → Bool) :
    ∀ (l : List Char) (a : Char) (t : List Char),
      l.dropWhile p = a :: t → p a = false := by
  intro l
  induction l with
  | nil => intro a t h; simp at h
  | cons b l ih =>
    intro a t h
    by_cases hb : p b
    · exact ih a t (by simpa [List.dropWhile_cons, hb] using h)
    · rw [List.dropWhile_cons_of_neg hb] at h
      cases h
      simpa using hb

/-- Right trim: remove trailing characters satisfying `p`. -/
def rdropChars (p : Char → Bool) (l : List Char) : List Char :=
  (l.reverse.dropWhile p).reverse

theorem rdropChars_rdropChars (p : Char → Bool) (l : List Char) :
    rdropChars p (rdropChars p l) = rdropChars p l := by
  unfold rdropChars
  rw [List.reverse_reverse, dropWhile_dropWhile]

theorem rdropChars_append_exists (p : Char → Bool) (l : List Char) :
    ∃ t, rdropChars p l ++ t = l := by
  obtain ⟨s, hs⟩ := dropWhile_suffix_exists p l.reverse
  refine ⟨s.reverse, ?_⟩
  have := congrArg List.reverse hs
  simpa [rdropChars, List.reverse_append] using this

theorem length_dropWhile_le_self (p : Char → Bool) (l : List Char) :
    (l.dropWhile p).length ≤ l.length := by
  obtain ⟨s, hs⟩ := dropWhile_suffix_exists p l
  calc (l.dropWhile p).length ≤ s.length + (l.dropWhile p).length := Nat.le_add_left _ _
    _ = l.length := by rw [← List.length_append, hs]

theorem dropWhile_rdropChars (p : Char → Bool) (l : List Char)
    (h : l.dropWhile p = l) : (rdropChars p l).dropWhile p = rdropChars p l := by
  obtain ⟨t, ht⟩ := rdropChars_append_exists p l
  cases hr : rdropChars p l with
  | nil => rfl
  | cons a m =>
    have hl : l = a :: (m ++ t) := by rw [← ht, hr]; simp
    have ha : p a = false := by
      by_contra hpa
      have hpa' : p a = true := by simpa using hpa
      have : l.dropWhile p = (m ++ t).dropWhile p := by
        rw [hl, List.dropWhile_cons_of_pos hpa']
      have hlen : l.length ≤ (m ++ t).length := by
        rw [h] at this
        calc l.length = ((m ++ t).dropWhile p).length := by rw [this]
          _ ≤ (m ++ t).length := length_dropWhile_le_self p (m ++ t)
      rw [hl] at hlen
      simp at hlen
    rw [List.dropWhile_cons_of_neg (by simp [ha])]

theorem trimChars_idem (l : List Char) : trimChars (trimChars l) = trimChars l := by
  show rdropChars wsChar (List.dropWhile wsChar (rdropChars wsChar (List.dropWhile wsChar l)))
      = rdropChars wsChar (List.dropWhile wsChar l)
  rw [dropWhile_rdropChars wsChar _ (dropWhile_dropWhile wsChar l),
    rdropChars_rdropChars]

theorem trimS_trimS (s : String) : trimS (trimS s) = trimS s := by
  unfold trimS
  exact congrArg String.mk (trimChars_idem s.data)

theorem trimS_empty : trimS "" = "" := rfl

/-- Characterize `lowChar`: it either fixes its argument or the argument is an
ASCII uppercase letter with a concrete image. -/
def upLetter (c : Char) : Bool :=
  c == 'A' || c == 'B' || c == 'C' || c == 'D' || c == 'E' || c == 'F' ||
  c == 'G' || c == 'H' || c == 'I' || c == 'J' || c == 'K' || c == 'L' ||
  c == 'M' || c == 'N' || c == 'O' || c == 'P' || c == 'Q' || c == 'R' ||
  c == 'S' || c == 'T' || c == 'U' || c == 'V' || c == 'W' || c == 'X' ||
  c == 'Y' || c == 'Z'

theorem lowChar_fix_or_up (c : Char) : lowChar c = c ∨ upLetter c = true := by
  unfold lowChar
  split
  case _ => exact Or.inr rfl
  case _ => exact Or.inr rfl
  case _ => exact Or.inr rfl
  case _ => exact Or.inr rfl
  case _ => exact Or.inr rfl
  case _ => exact Or.inr rfl
  case _ => exact Or.inr rfl
  case _ => exact Or.inr rfl
  case _ => exact Or.inr rfl
  case _ => exact Or.inr rfl
  case _ => exact Or.inr rfl
  case _ => exact Or.inr rfl
  case _ => exact Or.inr rfl
  case _ => exact Or.inr rfl
  case _ => exact Or.inr rfl
  case _ => exact Or.inr rfl
  case _ => exact Or.inr rfl
  case _ => exact Or.inr rfl
  case _ => exact Or.inr rfl
  case _ => exact Or.inr rfl
  case _ => exact Or.inr rfl
  case _ => exact Or.inr rfl
  case _ => exact Or.inr rfl
  case _ => exact Or.inr rfl
  case _ => exact Or.inr rfl
  case _ => exact Or.inr rfl
  case _ => exact Or.inl rfl

theorem upLetter_elim {c : Char} (h : upLetter c = true) :
    c = 'A' ∨ c = 'B' ∨ c = 'C' ∨ c = 'D' ∨ c = 'E' ∨ c = 'F' ∨ c = 'G' ∨
    c = 'H' ∨ c = 'I' ∨ c = 'J' ∨ c = 'K' ∨ c = 'L' ∨ c = 'M' ∨ c = 'N' ∨
    c = 'O' ∨ c = 'P' ∨ c = 'Q' ∨ c = 'R' ∨ c = 'S' ∨ c = 'T' ∨ c = 'U' ∨
    c = 'V' ∨ c = 'W' ∨ c = 'X' ∨ c = 'Y' ∨ c = 'Z' := by
  simp only [upLetter, Bool.or_eq_true, beq_iff_eq] at h
  simp only [or_assoc] at h
  exact h

theorem lowChar_idem (c : Char) : lowChar (lowChar c) = lowChar c := by
  rcases lowChar_fix_or_up c with h | h
  · rw [h]; exact h
  · rcases upLetter_elim h with h | h | h | h | h | h | h | h | h | h | h | h |
      h | h | h | h | h | h | h | h | h | h | h | h | h | h <;> subst h <;> rfl

theorem wsChar_lowChar (c : Char) : wsChar (lowChar c) = wsChar c := by
  rcases lowChar_fix_or_up c with h | h
  · rw [h]
  · rcases upLetter_elim h with h | h | h | h | h | h | h | h | h | h | h | h |
      h | h | h | h | h | h | h | h | h | h | h | h | h | h <;> subst h <;> rfl

theorem lowerS_lowerS (s : String) : lowerS (lowerS s) = lowerS s := by
  unfold lowerS
  refine congrArg String.mk ?_
  simp only [List.map_map]
  exact List.map_congr_left fun c _ => lowChar_idem c

theorem dropWhile_map_lowChar (l : List Char) :
    (l.map lowChar).dropWhile wsChar = (l.dropWhile wsChar).map lowChar := by
  induction l with
  | nil => rfl
  | cons a l ih =>
    by_cases h : wsChar a
    · have h' : wsChar (lowChar a) = true := by rw [wsChar_lowChar]; exact h
      simp [List.dropWhile_cons, h, h', ih]
    · have h' : ¬ wsChar (lowChar a) = true := by rw [wsChar_lowChar]; simpa using h
      simp [List.dropWhile_cons, h, h']

theorem reverse_map_lowChar (l : List Char) :
    (l.map lowChar).reverse = l.reverse.map lowChar := by
  simp

theorem trimChars_map_lowChar (l : List Char) :
    trimChars (l.map lowChar) = (trimChars l).map lowChar := by
  unfold trimChars
  rw [dropWhile_map_lowChar, reverse_map_lowChar, dropWhile_map_lowChar,
    reverse_map_lowChar]

theorem trimS_lowerS (s : String) : trimS (lowerS s) = lowerS (trimS s) := by
  unfold trimS lowerS
  exact congrArg String.mk (trimChars_map_lowChar s.data)

theorem normKey_trimS (s : String) : normKey (trimS s) = normKey s := by
  unfold normKey
  rw [trimS_trimS]

theorem normKey_normKey (s : String) : normKey (normKey s) = normKey s := by
  show lowerS (trimS (lowerS (trimS s))) = lowerS (trimS s)
  rw [trimS_lowerS, lowerS_lowerS, trimS_trimS]

theorem lowerS_empty_iff (s : String) : lowerS s = "" ↔ s = "" := by
  constructor
  · intro h
    have hd : (lowerS s).data = ("" : String).data := congrArg String.data h
    have : s.data.map lowChar = [] := hd
    have hnil : s.data = [] := by simpa using this
    cases s
    simpa using congrArg String.mk hnil
  · intro h; rw [h]; rfl

theorem trimS_ne_empty_of_normKey {s : String} (h : normKey s ≠ "") :
    trimS s ≠ "" := by
  intro he
  exact h (by unfold normKey; rw [he]; rfl)

theorem ne_empty_of_trimS {s : String} (h : trimS s ≠ "") : s ≠ "" := by
  intro he
  exact h (by rw [he]; rfl)

theorem baseLocal_trimS (s : String) : baseLocal (trimS s) = baseLocal s := by
  unfold baseLocal
  rw [normKey_trimS]

/-! ## Ledger data model (`GameEntry`) -/

/-- Transaction type of a ledger entry. -/
inductive EType where
  | deposit
  | redeem
  | freeplay
deriving DecidableEq, Repr

/-- One `GameEntry` document. -/
structure GameEntry where
  username : String
  gameName : String
  type : EType
  amount : Int
  amountFinal : Option Int
  date : String
  createdBy : String
deriving DecidableEq, Repr

/-- The `$ifNull: ["$amountFinal", "$amount"]` expression used by every
totals aggregation. -/
def eff (e : GameEntry) : Int := e.amountFinal.getD e.amount

/-! ## GET /games (games.js): totals aggregation -/

/-- Bool test that `pat` is a leading piece of `s` (the `$regex ^prefix`
month filter on `GameEntry.date`). -/
def startsWithL : List Char → List Char → Bool
  | [], _ => true
  | _ :: _, [] => false
  | a :: as, b :: bs => a == b && startsWithL as bs

/-- The optional month filter of GET /games: `none` when no valid
`year`/`month` pair is supplied, `some "YYYY-MM"` otherwise. -/
def dateOk (mf : Option String) (d : String) : Bool :=
  match mf with
  | none => true
  | some p => startsWithL p.data d.data

/-- A `Game` document as used by the GET /games enrichment
(`Number(g.coinsRecharged) || 0` is the stored baseline). -/
structure Game where
  name : String
  coinsRecharged : Int
deriving DecidableEq, Repr

/-- Ledger entries feeding a game's totals: the aggregation `$match` on
`gameName` plus the optional date filter. -/
def entriesForGame (entries : List GameEntry) (mf : Option String) (g : String) :
    List GameEntry :=
  entries.filter (fun e => decide (e.gameName = g) && dateOk mf e.date)

/-- The `$group` key of the GET /games aggregation:
`(gameName, username, date)`. -/
def key3 (e : GameEntry) : String × String × String := (e.gameName, e.username, e.date)

/-- The distinct group keys produced by `$group`. -/
def groupKeys (l : List GameEntry) : List (String × String × String) :=
  (l.map key3).dedup

/-- The entries of one `(gameName, username, date)` group. -/
def groupOf (l : List GameEntry) (k : String × String × String) : List GameEntry :=
  l.filter (fun e => decide (key3 e = k))

/-- Per-group conditional sum: `$sum` of `$cond [type = t, ifNull(amountFinal, amount), 0]`. -/
def groupSum (l : List GameEntry) (k : String × String × String) (t : EType) : Int :=
  (((groupOf l k).filter (fun e => decide (e.type = t))).map eff).sum

/-- The in-JS `perDayNet = redeem - deposit - freeplay` of one group. -/
def perDayNet (l : List GameEntry) (k : String × String × String) : Int :=
  groupSum l k .redeem - groupSum l k .deposit - groupSum l k .freeplay

/-- `g.net`: the sum of `perDayNet` over all groups. -/
def netOf (l : List GameEntry) : Int :=
  ((groupKeys l).map (perDayNet l)).sum

/-- `g.deposit` accumulated in the JS loop: the sum of the groups' deposit sums. -/
def depositTotalOf (l : List GameEntry) : Int :=
  ((groupKeys l).map (fun k => groupSum l k .deposit)).sum

/-- A flat (ungrouped) conditional sum over a list of entries. -/
def flatSum (l : List GameEntry) (t : EType) : Int :=
  ((l.filter (fun e => decide (e.type = t))).map eff).sum

/-- The `totalCoins` field returned by GET /games:
`coinsRecharged + net`, floored at zero by the `if (totalCoins < 0)` guard. -/
def gamesTotalCoins (g : Game) (entries : List GameEntry) (mf : Option String) : Int :=
  let net := netOf (entriesForGame entries mf g.name)
  let tc := g.coinsRecharged + net
  if tc < 0 then 0 else tc

/-- The `totalRecharged` field returned by GET /games: the accumulated
deposit sums of the game's groups. -/
def gamesTotalRecharged (g : Game) (entries : List GameEntry) (mf : Option String) : Int :=
  depositTotalOf (entriesForGame entries mf g.name)

/-! ### Partition lemmas: grouped sums equal flat sums -/

theorem sum_map_add_int {β : Type} (X Y : β → Int) (ks : List β) :
    (ks.map fun k => X k + Y k).sum = (ks.map X).sum + (ks.map Y).sum := by
  induction ks with
  | nil => simp
  | cons a ks ih => simp [ih]; ring

theorem sum_map_zero_int {β : Type} (ks : List β) :
    (ks.map fun _ => (0 : Int)).sum = 0 := by
  induction ks with
  | nil => rfl
  | cons a ks ih => simp [ih]

theorem sum_if_single {β : Type} [DecidableEq β] (c : Int) :
    ∀ (ks : List β) (x : β), ks.Nodup → x ∈ ks →
      (ks.map (fun k => if x = k then c else 0)).sum = c := by
  intro ks
  induction ks with
  | nil => intro x _ hx; simp at hx
  | cons a ks ih =>
    intro x hnd hx
    rcases List.mem_cons.mp hx with h | h
    · subst h
      have : (ks.map (fun k => if x = k then c else 0)).sum
          = (ks.map (fun _ => (0 : Int))).sum := by
        refine congrArg List.sum (List.map_congr_left fun k hk => ?_)
        have : x ≠ k := fun he => (List.nodup_cons.mp hnd).1 (he ▸ hk)
        simp [this]
      simp [this, sum_map_zero_int]
    · have hne : a ≠ x := fun he => (List.nodup_cons.mp hnd).1 (he ▸ h)
      have := ih x (List.nodup_cons.mp hnd).2 h
      simp [Ne.symm hne, this]

theorem sum_fibers {α β : Type} [DecidableEq β] (key : α → β) (f : α → Int) :
    ∀ (l : List α) (ks : List β), ks.Nodup → (∀ a ∈ l, key a ∈ ks) →
      (ks.map (fun k => ((l.filter (fun a => decide (key a = k))).map f).sum)).sum
        = (l.map f).sum := by
  intro l
  induction l with
  | nil =>
    intro ks _ _
    simp [sum_map_zero_int]
  | cons a l ih =>
    intro ks hnd hcov
    have hmem : key a ∈ ks := hcov a (List.mem_cons_self a l)
    have hstep : ∀ k : β,
        (((a :: l).filter (fun x => decide (key x = k))).map f).sum
          = (if key a = k then f a else 0)
            + ((l.filter (fun x => decide (key x = k))).map f).sum := by
      intro k
      by_cases h : key a = k
      · simp [List.filter_cons, h]
      · simp [List.filter_cons, h]
    calc (ks.map (fun k => (((a :: l).filter (fun x => decide (key x = k))).map f).sum)).sum
        = (ks.map (fun k => (if key a = k then f a else 0)
            + ((l.filter (fun x => decide (key x = k))).map f).sum)).sum := by
          exact congrArg List.sum (List.map_congr_left fun k _ => hstep k)
      _ = (ks.map (fun k => if key a = k then f a else 0)).sum
            + (ks.map (fun k => ((l.filter (fun x => decide (key x = k))).map f).sum)).sum :=
          sum_map_add_int _ _ ks
      _ = f a + (l.map f).sum := by
          rw [sum_if_single (f a) ks (key a) hnd hmem,
            ih ks hnd (fun x hx => hcov x (List.mem_cons_of_mem a hx))]
      _ = ((a :: l).map f).sum := by simp

theorem groupSum_partition (l : List GameEntry) (t : EType) :
    ((groupKeys l).map (fun k => groupSum l k t)).sum = flatSum l t := by
  have hcomm : ∀ k, groupSum l k t
      = (((l.filter (fun e => decide (e.type = t))).filter
          (fun e => decide (key3 e = k))).map eff).sum := by
    intro k
    unfold groupSum groupOf
    rw [List.filter_filter, List.filter_filter]
    congr 1
    refine congrArg (List.map eff) (List.filter_congr ?_)
    intro e _
    simp [Bool.and_comm]
  unfold flatSum
  calc ((groupKeys l).map (fun k => groupSum l k t)).sum
      = ((groupKeys l).map (fun k =>
          (((l.filter (fun e => decide (e.type = t))).filter
            (fun e => decide (key3 e = k))).map eff).sum)).sum := by
        exact congrArg List.sum (List.map_congr_left fun k _ => hcomm k)
    _ = ((l.filter (fun e => decide (e.type = t))).map eff).sum := by
        refine sum_fibers key3 eff _ (groupKeys l) (List.nodup_dedup _) ?_
        intro e he
        exact List.mem_dedup.mpr (List.mem_map_of_mem key3 (List.mem_of_mem_filter he))

theorem depositTotalOf_eq_flat (l : List GameEntry) :
    depositTotalOf l = flatSum l .deposit :=
  groupSum_partition l .deposit

/-! ## GET /admin/users (adminUsers.js, case-insensitive revision):
roster synthesis and per-user totals -/

/-- A `User` document (the fields the reconciliation logic reads). -/
structure URec where
  username : String
  email : String
  isApproved : Bool
  status : String
deriving DecidableEq, Repr

/-- A `LoginSession` document. -/
structure SessionRec where
  sid : String
  username : String
  email : Option String
  signInAt : Nat
  signOutAt : Option Nat
deriving DecidableEq, Repr

/-- The store state read by GET /admin/users: the `User`, `DeletedUsername`,
`GameEntry` and `LoginSession` collections. -/
structure St where
  users : List URec
  deleted : List String
  entries : List GameEntry
  sessions : List SessionRec
deriving DecidableEq, Repr

/-- Step 1 of the handler: `realUsernameLowerSet`, the case-insensitive keys
of all existing usernames (trimmed, empties dropped, then normalized). -/
def realKeys (users : List URec) : List String :=
  ((users.map (fun u => trimS u.username)).filter (fun s => !(s == ""))).map normKey

/-- Step 1 of the handler: `existingEmails` (trimmed, lowercased, empties dropped). -/
def existingEmailsOf (users : List URec) : List String :=
  (users.map (fun u => lowerS (trimS u.email))).filter (fun s => !(s == ""))

/-- Step 2 of the handler: `deletedUsernameLowerSet`, tombstoned usernames as
lowercase keys, empties dropped. -/
def deletedKeys (deleted : List String) : List String :=
  (deleted.map normKey).filter (fun s => !(s == ""))

/-- Step 3 of the handler: trimmed non-empty usernames collected from
`GameEntry.username` (the `$match`/`$group $trim` aggregation followed by the
JS trim-and-filter; group-level exact dedup is subsumed by `uniqueByKey`
below, with document order standing in for Mongo's unspecified order). -/
def gameUsernamesOf (entries : List GameEntry) : List String :=
  (((entries.map (fun e => e.username)).filter (fun s => !(s == ""))).map trimS).filter
    (fun s => !(s == ""))

/-- The case-insensitive dedup loop building `uniqueGameUsernames`: first
occurrence per non-empty `normUsernameKey` wins, keeping the trimmed display
form. -/
def uniqueByKey (seen : List String) : List String → List String
  | [] => []
  | u :: rest =>
    let k := normKey u
    if k = "" ∨ k ∈ seen then uniqueByKey seen rest
    else trimS u :: uniqueByKey (k :: seen) rest

/-- Step 4's `missingUsernames` filter: keep game usernames whose key is in
neither the real-user key set nor the tombstone key set. -/
def missingOf (st : St) : List String :=
  (uniqueByKey [] (gameUsernamesOf st.entries)).filter
    (fun u => decide (¬ normKey u ∈ realKeys st.users ∧ ¬ normKey u ∈ deletedKeys st.deleted))

/-- Candidate placeholder email: `base@noemail.local`, then `base+i@noemail.local`. -/
def emailCand (base : String) (i : Nat) : String :=
  if i = 0 then base ++ "@noemail.local" else base ++ "+" ++ toString i ++ "@noemail.local"

/-- The collision loop `while (existingEmails.has(email))`, with fuel: among
`taken.length + 1` successive candidates at least one is unused, so the fuel
never runs out on the handler's inputs. -/
def freshEmail (base : String) (taken : List String) : Nat → Nat → String
  | 0, i => emailCand base i
  | fuel + 1, i =>
    let c := emailCand base i
    if c ∈ taken then freshEmail base taken fuel (i + 1) else c

/-- A placeholder document queued for `insertMany`. -/
structure UDoc where
  username : String
  email : String
deriving DecidableEq, Repr

/-- The `docs` loop of step 4: skip entries whose trimmed form, key, or email
local part is empty; otherwise allocate a fresh placeholder email and queue a
document.  (The loop's `realUsernameLowerSet.add(key)` is dead within the
request — the missing filter has already run and `uniqueByKey` deduped the
keys — so it is not modelled.) -/
def buildDocs (emails : List String) : List String → List UDoc
  | [] => []
  | u :: rest =>
    let clean := trimS u
    if clean = "" ∨ normKey clean = "" then buildDocs emails rest
    else
      let base := baseLocal clean
      if base = "" then buildDocs emails rest
      else
        let em := freshEmail base emails (emails.length + 1) 0
        ⟨clean, em⟩ :: buildDocs (em :: emails) rest

/-- The placeholder documents a GET /admin/users request inserts. -/
def synthDocs (st : St) : List UDoc :=
  buildDocs (existingEmailsOf st.users) (missingOf st)

/-- The inserted `User` row of a placeholder document
(`isApproved: false, status: "pending"`). -/
def docUser (d : UDoc) : URec := ⟨d.username, d.email, false, "pending"⟩

/-- The store after the synthesis step's `insertMany` succeeds. -/
def applySynth (st : St) : St :=
  { st with users := st.users ++ (synthDocs st).map docUser }

/-- Step 6's per-user totals aggregation: group ledger entries by trimmed
username and sum `ifNull(amountFinal, amount)` per type. -/
def userTot (entries : List GameEntry) (uname : String) (t : EType) : Int :=
  ((entries.filter (fun e => decide (trimS e.username = uname ∧ e.type = t))).map eff).sum

/-- The merged `totalDeposit` of one response row: totals are looked up by the
row's trimmed username, defaulting to zero. -/
def rowDeposit (entries : List GameEntry) (u : URec) : Int :=
  let uname := trimS u.username
  if uname = "" then 0 else userTot entries uname .deposit

/-! ### Facts about roster synthesis -/

/-- The conditions under which the `docs` loop actually queues a document for
a missing username. -/
def passGuards (u : String) : Prop :=
  ¬ (trimS u = "" ∨ normKey (trimS u) = "") ∧ baseLocal (trimS u) ≠ ""

instance (u : String) : Decidable (passGuards u) := by
  unfold passGuards
  infer_instance

theorem buildDocs_nil_of_skip (l : List String) :
    ∀ emails, (∀ u ∈ l, ¬ passGuards u) → buildDocs emails l = [] := by
  induction l with
  | nil => intro emails _; rfl
  | cons u rest ih =>
    intro emails h
    have hu := h u (List.mem_cons_self u rest)
    by_cases h1 : trimS u = "" ∨ normKey (trimS u) = ""
    · simp only [buildDocs, if_pos h1]
      exact ih emails fun v hv => h v (List.mem_cons_of_mem u hv)
    · have h2 : baseLocal (trimS u) = "" := by
        by_contra h2
        exact hu ⟨h1, h2⟩
      simp only [buildDocs, if_neg h1, h2, if_pos rfl]
      exact ih emails fun v hv => h v (List.mem_cons_of_mem u hv)

theorem buildDocs_mem (d : UDoc) (l : List String) :
    ∀ emails, d ∈ buildDocs emails l → ∃ u ∈ l, d.username = trimS u := by
  induction l with
  | nil => intro emails h; simp [buildDocs] at h
  | cons u rest ih =>
    intro emails h
    by_cases h1 : trimS u = "" ∨ normKey (trimS u) = ""
    · rw [buildDocs, if_pos h1] at h
      obtain ⟨v, hv, he⟩ := ih emails h
      exact ⟨v, List.mem_cons_of_mem u hv, he⟩
    · by_cases h2 : baseLocal (trimS u) = ""
      · rw [buildDocs, if_neg h1] at h
        simp only [h2, if_pos rfl] at h
        obtain ⟨v, hv, he⟩ := ih emails h
        exact ⟨v, List.mem_cons_of_mem u hv, he⟩
      · rw [buildDocs, if_neg h1] at h
        simp only [if_neg h2] at h
        rcases List.mem_cons.mp h with h | h
        · exact ⟨u, List.mem_cons_self u rest, by rw [h]⟩
        · obtain ⟨v, hv, he⟩ := ih _ h
          exact ⟨v, List.mem_cons_of_mem u hv, he⟩

theorem buildDocs_mem_name (l : List String) :
    ∀ emails (u : String), u ∈ l → passGuards u →
      trimS u ∈ (buildDocs emails l).map (fun d => d.username) := by
  induction l with
  | nil => intro emails u h _; simp at h
  | cons v rest ih =>
    intro emails u hu hP
    rcases List.mem_cons.mp hu with h | h
    · subst h
      have h1 : ¬ (trimS u = "" ∨ normKey (trimS u) = "") := hP.1
      have h2 : baseLocal (trimS u) ≠ "" := hP.2
      rw [buildDocs, if_neg h1]
      simp only [if_neg h2]
      simp
    · by_cases h1 : trimS v = "" ∨ normKey (trimS v) = ""
      · rw [buildDocs, if_pos h1]
        exact ih emails u h hP
      · by_cases h2 : baseLocal (trimS v) = ""
        · rw [buildDocs, if_neg h1]
          simp only [h2, if_pos rfl]
          exact ih emails u h hP
        · rw [buildDocs, if_neg h1]
          simp only [if_neg h2]
          simp only [List.map_cons, List.mem_cons]
          exact Or.inr (ih _ u h hP)

theorem uniqueByKey_mem (l : List String) :
    ∀ seen (u : String), u ∈ uniqueByKey seen l →
      ∃ w ∈ l, u = trimS w ∧ normKey w ≠ "" := by
  induction l with
  | nil => intro seen u h; simp [uniqueByKey] at h
  | cons v rest ih =>
    intro seen u h
    by_cases hc : normKey v = "" ∨ normKey v ∈ seen
    · rw [uniqueByKey, if_pos hc] at h
      obtain ⟨w, hw, he, hk⟩ := ih seen u h
      exact ⟨w, List.mem_cons_of_mem v hw, he, hk⟩
    · rw [uniqueByKey, if_neg hc] at h
      push_neg at hc
      rcases List.mem_cons.mp h with h | h
      · exact ⟨v, List.mem_cons_self v rest, h, hc.1⟩
      · obtain ⟨w, hw, he, hk⟩ := ih _ u h
        exact ⟨w, List.mem_cons_of_mem v hw, he, hk⟩

theorem gameUsernames_trimmed (entries : List GameEntry) (w : String)
    (h : w ∈ gameUsernamesOf entries) : trimS w = w ∧ w ≠ "" := by
  unfold gameUsernamesOf at h
  have h1 := List.mem_filter.mp h
  obtain ⟨hmem, hne⟩ := h1
  obtain ⟨v, _, hv⟩ := List.mem_map.mp hmem
  constructor
  · rw [← hv, trimS_trimS]
  · simpa using hne

theorem realKeys_append (a b : List URec) :
    realKeys (a ++ b) = realKeys a ++ realKeys b := by
  unfold realKeys
  rw [List.map_append, List.filter_append, List.map_append]

theorem mem_realKeys (users : List URec) (v : URec) (hv : v ∈ users)
    (hne : trimS v.username ≠ "") :
    normKey (trimS v.username) ∈ realKeys users := by
  unfold realKeys
  refine List.mem_map.mpr ⟨trimS v.username, List.mem_filter.mpr ⟨?_, ?_⟩, rfl⟩
  · exact List.mem_map.mpr ⟨v, hv, rfl⟩
  · simpa using hne

theorem mem_missingOf {st : St} {u : String} (h : u ∈ missingOf st) :
    u ∈ uniqueByKey [] (gameUsernamesOf st.entries)
      ∧ ¬ normKey u ∈ realKeys st.users ∧ ¬ normKey u ∈ deletedKeys st.deleted := by
  have := List.mem_filter.mp h
  exact ⟨this.1, of_decide_eq_true this.2⟩

theorem mem_missingOf_iff {st : St} {u : String} :
    u ∈ missingOf st ↔
      u ∈ uniqueByKey [] (gameUsernamesOf st.entries)
        ∧ ¬ normKey u ∈ realKeys st.users ∧ ¬ normKey u ∈ deletedKeys st.deleted := by
  constructor
  · exact mem_missingOf
  · intro ⟨h1, h2⟩
    exact List.mem_filter.mpr ⟨h1, decide_eq_true h2⟩

/-- Placeholder documents never carry a normalized username matching any
tombstoned username (shared engine behind the tombstone claims). -/
theorem synthDocs_avoid_deleted (st : St) (t : String) (ht : t ∈ st.deleted)
    (d : UDoc) (hd : d ∈ synthDocs st) : normKey d.username ≠ normKey t := by
  obtain ⟨u, hu, hname⟩ := buildDocs_mem d (missingOf st) _ hd
  obtain ⟨huniq, _, hdel⟩ := mem_missingOf hu
  obtain ⟨w, _, hue, hkw⟩ := uniqueByKey_mem _ _ u huniq
  have hku : normKey u ≠ "" := by rw [hue, normKey_trimS]; exact hkw
  have hdu : normKey d.username = normKey u := by rw [hname, normKey_trimS]
  intro hcontra
  have htk : normKey t ≠ "" := by rw [← hcontra, hdu]; exact hku
  have hmem : normKey t ∈ deletedKeys st.deleted := by
    unfold deletedKeys
    exact List.mem_filter.mpr ⟨List.mem_map.mpr ⟨t, ht, rfl⟩, by simpa using htk⟩
  rw [hdu] at hcontra
  rw [← hcontra] at hmem
  exact hdel hmem

/-- C3: roster synthesis is idempotent — on the state produced by one
synthesis pass (with unchanged ledger and tombstones), the next pass computes
an empty insert batch, so no additional `UserAccount` rows are inserted. -/
theorem roster_synthesis_idempotent (st : St) : synthDocs (applySynth st) = [] := by
  unfold synthDocs
  apply buildDocs_nil_of_skip
  intro u hu hP
  obtain ⟨huniq, hreal, hdel⟩ := mem_missingOf hu
  have hent : (applySynth st).entries = st.entries := rfl
  rw [hent] at huniq
  obtain ⟨w, hw, hue, _⟩ := uniqueByKey_mem _ _ u huniq
  have hreal1 : ¬ normKey u ∈ realKeys st.users := by
    intro hmem
    apply hreal
    show normKey u ∈ realKeys (st.users ++ (synthDocs st).map docUser)
    rw [realKeys_append]
    exact List.mem_append.mpr (Or.inl hmem)
  have hmiss1 : u ∈ missingOf st := mem_missingOf_iff.mpr ⟨huniq, hreal1, hdel⟩
  have hname := buildDocs_mem_name (missingOf st) (existingEmailsOf st.users) u hmiss1 hP
  obtain ⟨d, hd, hdn⟩ := List.mem_map.mp hname
  have htne : trimS u ≠ "" := fun he => hP.1 (Or.inl he)
  have hrow : normKey (trimS (docUser d).username)
      ∈ realKeys ((synthDocs st).map docUser) := by
    refine mem_realKeys _ _ (List.mem_map_of_mem docUser hd) ?_
    show trimS d.username ≠ ""
    rw [hdn, trimS_trimS]
    exact htne
  have hkey : normKey (trimS (docUser d).username) = normKey u := by
    show normKey (trimS d.username) = normKey u
    rw [hdn, trimS_trimS, normKey_trimS]
  rw [hkey] at hrow
  apply hreal
  show normKey u ∈ realKeys (st.users ++ (synthDocs st).map docUser)
  rw [realKeys_append]
  exact List.mem_append.mpr (Or.inr hrow)

/-- C4: a tombstoned username is never re-synthesized — for every store state
and every username in the `DeletedUsername` collection, no placeholder
document produced by GET /admin/users carries that normalized username, no
matter what ledger activity exists or how the ledger casing differs. -/
theorem tombstone_blocks_synthesis (st : St) (t : String) (ht : t ∈ st.deleted)
    (d : UDoc) (hd : d ∈ synthDocs st) : normKey d.username ≠ normKey t :=
  synthDocs_avoid_deleted st t ht d hd

/-- Concrete store for the tombstone witness: "Carol" is tombstoned while the
ledger has activity for "CAROL" and for "dave". -/
def stTomb : St :=
  { users := []
    deleted := ["Carol"]
    entries :=
      [ ⟨"CAROL", "G1", .deposit, 10, none, "2024-03-01", ""⟩
      , ⟨"dave", "G1", .redeem, 5, none, "2024-03-02", ""⟩ ]
    sessions := [] }

/-- The single placeholder document the pipeline produces on `stTomb`. -/
def dTomb : UDoc := ⟨"dave", "dave@noemail.local"⟩

theorem tombstone_blocks_synthesis_witness :
    "Carol" ∈ stTomb.deleted ∧ dTomb ∈ synthDocs stTomb
      ∧ normKey dTomb.username ≠ normKey "Carol" :=
  ⟨by decide, by decide,
    tombstone_blocks_synthesis stTomb "Carol" (by decide) dTomb (by decide)⟩

/-- C1: for every game listed by GET /games, grouping ledger entries by
`(gameName, username, date)`, netting `redeem - deposit - freeplay` per group
and summing over the game's groups, the returned `totalCoins` equals
`max(0, coinsRecharged + net)` — never negative — while `totalRecharged` is
the flat sum of the game's deposit amounts, not reduced by the net. -/
theorem games_totalCoins_rule (entries : List GameEntry) (mf : Option String) (g : Game) :
    gamesTotalCoins g entries mf
        = max 0 (g.coinsRecharged + netOf (entriesForGame entries mf g.name))
      ∧ 0 ≤ gamesTotalCoins g entries mf
      ∧ gamesTotalRecharged g entries mf
          = flatSum (entriesForGame entries mf g.name) .deposit := by
  refine ⟨?_, ?_, depositTotalOf_eq_flat _⟩
  · show (if g.coinsRecharged + netOf (entriesForGame entries mf g.name) < 0 then 0
        else g.coinsRecharged + netOf (entriesForGame entries mf g.name)) = _
    by_cases h : g.coinsRecharged + netOf (entriesForGame entries mf g.name) < 0
    · rw [if_pos h]
      exact (max_eq_left h.le).symm
    · rw [if_neg h]
      exact (max_eq_right (not_lt.mp h)).symm
  · show 0 ≤ (if g.coinsRecharged + netOf (entriesForGame entries mf g.name) < 0 then 0
        else g.coinsRecharged + netOf (entriesForGame entries mf g.name))
    by_cases h : g.coinsRecharged + netOf (entriesForGame entries mf g.name) < 0
    · rw [if_pos h]
    · rw [if_neg h]
      exact not_lt.mp h

/-- C9: in both totals computations, a ledger entry contributes `amountFinal`
when present and `amount` otherwise (`Option.getD`): prepending a deposit
entry to the ledger raises the matching per-user total and the matching
game's `totalRecharged` by exactly that value. -/
theorem amountFinal_precedence (e : GameEntry) (l : List GameEntry) (g : Game)
    (hg : e.gameName = g.name) (hdep : e.type = .deposit) :
    userTot (e :: l) (trimS e.username) .deposit
        = e.amountFinal.getD e.amount + userTot l (trimS e.username) .deposit
      ∧ gamesTotalRecharged g (e :: l) none
          = e.amountFinal.getD e.amount + gamesTotalRecharged g l none := by
  constructor
  · unfold userTot
    rw [List.filter_cons_of_pos (by simp [hdep])]
    simp [eff]
  · unfold gamesTotalRecharged
    rw [depositTotalOf_eq_flat, depositTotalOf_eq_flat]
    unfold flatSum entriesForGame
    rw [List.filter_cons_of_pos (by simp [hg, dateOk])]
    rw [List.filter_cons_of_pos (by simp [hdep])]
    simp [eff]

/-- Concrete deposit entry with `amountFinal = 50` overriding `amount = 30`. -/
def eFin : GameEntry := ⟨"bob", "G1", .deposit, 30, some 50, "2024-03-01", ""⟩

theorem amountFinal_precedence_witness :
    userTot [eFin] (trimS eFin.username) .deposit = 50
      ∧ gamesTotalRecharged ⟨"G1", 0⟩ [eFin] none = 50 := by
  have h := amountFinal_precedence eFin [] ⟨"G1", 0⟩ rfl rfl
  refine ⟨?_, ?_⟩
  · rw [h.1]; decide
  · rw [h.2]; decide

/-- Two deposit ledger entries whose usernames may differ in case or
whitespace, for the identity-merge analysis. -/
def casePair (a₁ a₂ : String) (amt₁ amt₂ : Int) : List GameEntry :=
  [ ⟨a₁, "G1", .deposit, amt₁, none, "2024-03-01", ""⟩
  , ⟨a₂, "G1", .deposit, amt₂, none, "2024-03-01", ""⟩ ]

/-- Store with only the two ledger entries of `casePair`. -/
def caseSt (a₁ a₂ : String) (amt₁ amt₂ : Int) : St :=
  ⟨[], [], casePair a₁ a₂ amt₁ amt₂, []⟩

/-- C2 counterexample: with ledger usernames `"Alice "` and `"alice"`
(amounts 10 and 5) and empty user/tombstone stores, the full
GET /admin/users pipeline synthesizes exactly one account, but that
account's returned `totalDeposit` is 10 — the amounts of the two entries are
NOT combined into 15, because the totals aggregation groups by the trimmed,
case-sensitive username. -/
theorem adminUsers_caseMerge_cex :
    ((applySynth (caseSt "Alice " "alice" 10 5)).users.map
        (fun u => (u.username, rowDeposit (applySynth (caseSt "Alice " "alice" 10 5)).entries u)))
      = [("Alice", 10)] ∧ ((10 : Int) ≠ 10 + 5) := by
  constructor
  · decide
  · decide

/-- C2 amended: two ledger usernames with the same normalized key yield
exactly one synthesized account (keyed case-insensitively, displayed with the
first entry's trimmed casing), but the per-user totals attach an entry's
amount to that account only when the entry's trimmed username matches the
account's username exactly — so whitespace-only variants are combined while
case-differing variants are not. -/
theorem adminUsers_caseMerge_amended (a₁ a₂ : String) (amt₁ amt₂ : Int)
    (hk : normKey a₂ = normKey a₁) (ht : trimS a₁ ≠ "")
    (hk1 : normKey a₁ ≠ "") (hb : baseLocal a₁ ≠ "") :
    (synthDocs (caseSt a₁ a₂ amt₁ amt₂)).map (fun d => d.username) = [trimS a₁]
      ∧ userTot (casePair a₁ a₂ amt₁ amt₂) (trimS a₁) .deposit
        = amt₁ + (if trimS a₂ = trimS a₁ then amt₂ else 0) := by
  have ha₁ : a₁ ≠ "" := ne_empty_of_trimS ht
  have htk₂ : normKey a₂ ≠ "" := by rw [hk]; exact hk1
  have ht₂ : trimS a₂ ≠ "" := trimS_ne_empty_of_normKey htk₂
  have ha₂ : a₂ ≠ "" := ne_empty_of_trimS ht₂
  have hg : gameUsernamesOf (casePair a₁ a₂ amt₁ amt₂) = [trimS a₁, trimS a₂] := by
    unfold gameUsernamesOf casePair
    simp [List.filter_cons, ha₁, ha₂, ht, ht₂]
  have hu : uniqueByKey [] [trimS a₁, trimS a₂] = [trimS a₁] := by
    rw [uniqueByKey]
    rw [if_neg (by
      rw [normKey_trimS]
      simp [hk1])]
    rw [trimS_trimS]
    rw [uniqueByKey]
    rw [if_pos (by
      rw [normKey_trimS, normKey_trimS, hk]
      exact Or.inr (List.mem_singleton.mpr rfl))]
    rfl
  have hm : missingOf (caseSt a₁ a₂ amt₁ amt₂) = [trimS a₁] := by
    unfold missingOf
    show (uniqueByKey [] (gameUsernamesOf (casePair a₁ a₂ amt₁ amt₂))).filter _ = _
    rw [hg, hu]
    simp [realKeys, deletedKeys, caseSt]
  constructor
  · show (buildDocs (existingEmailsOf []) (missingOf (caseSt a₁ a₂ amt₁ amt₂))).map
        (fun d => d.username) = [trimS a₁]
    rw [hm]
    rw [buildDocs]
    rw [if_neg (by
      rw [trimS_trimS, normKey_trimS]
      simp [ht, hk1])]
    rw [if_neg (by rw [trimS_trimS, baseLocal_trimS]; exact hb)]
    simp only [List.map_cons, trimS_trimS]
    rw [show ∀ em, buildDocs em [] = [] from fun _ => rfl]
    rfl
  · unfold userTot casePair
    rw [List.filter_cons_of_pos (by simp)]
    by_cases hcase : trimS a₂ = trimS a₁
    · rw [List.filter_cons_of_pos (by simp [hcase])]
      simp [eff, hcase]
    · rw [List.filter_cons_of_neg (by simp [hcase])]
      simp [eff, hcase]

theorem adminUsers_caseMerge_amended_witness :
    (synthDocs (caseSt "Alice " "alice" 10 5)).map (fun d => d.username) = [trimS "Alice "]
      ∧ userTot (casePair "Alice " "alice" 10 5) (trimS "Alice ") .deposit
        = 10 + (if trimS "alice" = trimS "Alice " then 5 else 0) :=
  adminUsers_caseMerge_amended "Alice " "alice" 10 5 (by decide) (by decide)
    (by decide) (by decide)

/-! ## POST /logins/start and /logins/end (logins.js) -/

/-- The handler's `User.findOne({ email: rawEmail })` with `rawEmail = email.trim()`. -/
def findUserByEmail (users : List URec) (email : String) : Option URec :=
  users.find? (fun u => u.email == trimS email)

/-- Step 3 of /logins/start: `updateMany({username, signOutAt: null}, {$set: {signOutAt: now}})`. -/
def closeOpen (sessions : List SessionRec) (uname : String) (now : Nat) : List SessionRec :=
  sessions.map (fun s =>
    if s.username = uname ∧ s.signOutAt = none then { s with signOutAt := some now } else s)

/-- POST /logins/start: 400 on missing email, 404 when no user matches, 403
when the account is neither approved nor active or is blocked; otherwise
close all open sessions of the canonical username and append a fresh open
session.  Returns the status code and the resulting session store. -/
def startLogin (users : List URec) (sessions : List SessionRec) (email : String)
    (signInAt : Option Nat) (now : Nat) (newSid : String) : Nat × List SessionRec :=
  if email = "" then (400, sessions)
  else
    match findUserByEmail users email with
    | none => (404, sessions)
    | some user =>
      if ¬ (user.isApproved = true ∨ user.status = "active") then (403, sessions)
      else if user.status = "blocked" then (403, sessions)
      else
        (201, closeOpen sessions user.username now
          ++ [⟨newSid, user.username, some user.email, signInAt.getD now, none⟩])

/-- Number of sessions of a username with `signOutAt == null`. -/
def openCount (sessions : List SessionRec) (uname : String) : Nat :=
  (sessions.filter (fun s => decide (s.username = uname ∧ s.signOutAt = none))).length

/-- N sequential /logins/start calls for the same email, no intervening end. -/
def startN (users : List URec) (email : String) : Nat → List SessionRec → List SessionRec
  | 0, sessions => sessions
  | n + 1, sessions =>
    (startLogin users (startN users email n sessions) email none n "s").2

/-- The `LoginSession.create` performed by PATCH /admin/users/:id/approve:
a new open session is appended with no closing of prior open sessions. -/
def approveCreateSession (sessions : List SessionRec) (u : URec) (now : Nat)
    (sid : String) : List SessionRec :=
  sessions ++ [⟨sid, u.username, some u.email, now, none⟩]

theorem openCount_closeOpen (uname : String) (now : Nat) :
    ∀ sessions : List SessionRec, openCount (closeOpen sessions uname now) uname = 0 := by
  intro sessions
  induction sessions with
  | nil => rfl
  | cons s rest ih =>
    unfold openCount closeOpen at *
    simp only [List.map_cons]
    by_cases h : s.username = uname ∧ s.signOutAt = none
    · rw [if_pos h]
      rw [List.filter_cons_of_neg (by simp)]
      exact ih
    · rw [if_neg h]
      rw [List.filter_cons_of_neg (by simpa using h)]
      exact ih

theorem openCount_append (a b : List SessionRec) (uname : String) :
    openCount (a ++ b) uname = openCount a uname + openCount b uname := by
  unfold openCount
  rw [List.filter_append, List.length_append]

theorem startLogin_openCount (users : List URec) (sessions : List SessionRec)
    (email : String) (si : Option Nat) (now : Nat) (sid : String) (u : URec)
    (hne : email ≠ "") (hf : findUserByEmail users email = some u)
    (happr : u.isApproved = true ∨ u.status = "active") (hbl : u.status ≠ "blocked") :
    openCount (startLogin users sessions email si now sid).2 u.username = 1 := by
  unfold startLogin
  rw [if_neg hne, hf]
  simp only []
  rw [if_neg (not_not_intro happr), if_neg hbl]
  rw [openCount_append, openCount_closeOpen]
  simp [openCount]

/-- C5 (amended): the /logins/start handler itself enforces the
single-open-session rule — after `N ≥ 1` sequential successful start calls
for the same (approved, unblocked) account with no intervening end, exactly
one session of that username has `signOutAt == null`, whatever sessions
existed before. -/
theorem start_single_open_session (users : List URec) (email : String)
    (sessions : List SessionRec) (u : URec) (N : Nat)
    (hne : email ≠ "") (hf : findUserByEmail users email = some u)
    (happr : u.isApproved = true ∨ u.status = "active") (hbl : u.status ≠ "blocked")
    (hN : 1 ≤ N) :
    openCount (startN users email N sessions) u.username = 1 := by
  obtain ⟨n, rfl⟩ : ∃ n, N = n + 1 := ⟨N - 1, by omega⟩
  exact startLogin_openCount users (startN users email n sessions) email none n "s" u
    hne hf happr hbl

theorem start_single_open_session_witness :
    openCount (startN [⟨"bob", "b@x.com", true, "active"⟩] "b@x.com" 3 []) "bob" = 1 :=
  start_single_open_session [⟨"bob", "b@x.com", true, "active"⟩] "b@x.com" []
    ⟨"bob", "b@x.com", true, "active"⟩ 3 (by decide) (by decide) (Or.inr rfl)
    (by decide) (by omega)

/-- C5 counterexample: the claim says every session-creating operation,
including user approval, preserves "at most one open session per username".
But PATCH /admin/users/:id/approve appends an open session without closing
existing ones: with one open session for "bob" already present, approval
leaves two sessions with `signOutAt == null`. -/
theorem approve_breaks_single_open_cex :
    openCount (approveCreateSession [⟨"s1", "bob", some "b@x.com", 1, none⟩]
        ⟨"bob", "b@x.com", true, "active"⟩ 2 "s2") "bob" = 2
      ∧ ¬ openCount (approveCreateSession [⟨"s1", "bob", some "b@x.com", 1, none⟩]
        ⟨"bob", "b@x.com", true, "active"⟩ 2 "s2") "bob" ≤ 1 := by
  constructor
  · decide
  · decide

/-- C6: /logins/start with an account that is neither active nor approved
responds 403 and leaves the session store unchanged. -/
theorem logins_start_rejects_unapproved (users : List URec) (sessions : List SessionRec)
    (email : String) (si : Option Nat) (now : Nat) (sid : String) (u : URec)
    (hne : email ≠ "") (hf : findUserByEmail users email = some u)
    (hnot : ¬ (u.isApproved = true ∨ u.status = "active")) :
    startLogin users sessions email si now sid = (403, sessions) := by
  unfold startLogin
  rw [if_neg hne, hf]
  simp only []
  rw [if_pos hnot]

theorem logins_start_rejects_unapproved_witness :
    startLogin [⟨"eve", "e@x.com", false, "pending"⟩] [] "e@x.com" none 0 "s"
      = (403, []) :=
  logins_start_rejects_unapproved [⟨"eve", "e@x.com", false, "pending"⟩] []
    "e@x.com" none 0 "s" ⟨"eve", "e@x.com", false, "pending"⟩
    (by decide) (by decide) (by decide)

/-- POST /logins/end as written in `api/routes/logins.js`.  After the
presence/type check on `sessionId` (the falsy check catches a missing field
and the empty string), the handler evaluates
`mongoose.Types.ObjectId.isValid(sessionId)` — but that file never imports
`mongoose`, so the line throws a `ReferenceError`, the `catch` block responds
500, and no session is ever looked up or updated.  The unreachable
400/404/update branches are therefore absent from the embedding. -/
def loginsEnd (sessions : List SessionRec) (sessionId : Option String) :
    Nat × List SessionRec :=
  match sessionId with
  | none => (400, sessions)
  | some sid => if sid = "" then (400, sessions) else (500, sessions)

/-- C7 (code bug evaluated): even a well-formed 24-hex identifier of an
existing session — and any malformed identifier — makes /logins/end respond
500 with the store unchanged, contradicting the claim that such requests get
a 400/404 and that valid identifiers update `signOutAt`. -/
theorem logins_end_always_500 :
    loginsEnd [⟨"64b8f0c2a1d3e4f5a6b7c8d9", "bob", some "b@x.com", 1, none⟩]
        (some "64b8f0c2a1d3e4f5a6b7c8d9")
      = (500, [⟨"64b8f0c2a1d3e4f5a6b7c8d9", "bob", some "b@x.com", 1, none⟩])
    ∧ loginsEnd [] (some "abc") = (500, []) := by
  constructor
  · decide
  · decide

/-! ## GET /logins (logins.js): listing with caps -/

/-- The `sort({ signInAt: -1 })` order: newer (or equal) sign-in first. -/
def byRecency (a b : SessionRec) : Prop := b.signInAt ≤ a.signInAt

instance : DecidableRel byRecency := fun _ _ => Nat.decLe _ _

instance : IsTotal SessionRec byRecency := ⟨fun a b => Nat.le_total b.signInAt a.signInAt⟩

instance : IsTrans SessionRec byRecency := ⟨fun _ _ _ hab hbc => le_trans hbc hab⟩

/-- The base `find` filter of GET /logins: a non-empty username (overridden
by an exact match when the `username` query is present) and a present email. -/
def loginsBase (sessions : List SessionRec) (uq : Option String) : List SessionRec :=
  sessions.filter (fun s =>
    (match uq with
     | some un => decide (s.username = un)
     | none => !(s.username == "")) && s.email.isSome)

/-- The row cap: `limit(1)` when `latest` is `"1"` or `"true"`, else `limit(200)`. -/
def loginsCap (latest : Option String) : Nat :=
  if latest = some "1" ∨ latest = some "true" then 1 else 200

/-- Sessions after sort and limit, before the approved-user filter. -/
def loginsCapped (sessions : List SessionRec) (latest : Option String)
    (uq : Option String) : List SessionRec :=
  ((loginsBase sessions uq).insertionSort byRecency).take (loginsCap latest)

/-- The `approvedSet`: usernames (among the capped rows' usernames) whose
user is approved or active. -/
def approvedNamesOf (users : List URec) (names : List String) : List String :=
  (users.filter (fun u =>
    decide (u.username ∈ names) && decide (u.isApproved = true ∨ u.status = "active"))).map
      (fun u => u.username)

/-- GET /api/logins: filter, sort by `signInAt` descending, cap, then keep
only sessions of approved users. -/
def loginsList (sessions : List SessionRec) (users : List URec)
    (latest : Option String) (uq : Option String) : List SessionRec :=
  (loginsCapped sessions latest uq).filter (fun s =>
    decide (s.username ∈ approvedNamesOf users
      (((loginsCapped sessions latest uq).map (fun s => s.username)).dedup)))

/-- C10: GET /logins returns at most 200 rows (at most 1 when
`latest=1|true`), ordered by `signInAt` descending; the cap is applied
before the approved-user filter, so the response never exceeds it. -/
theorem logins_list_cap (sessions : List SessionRec) (users : List URec)
    (latest : Option String) (uq : Option String) :
    (loginsList sessions users latest uq).length ≤ 200
      ∧ List.Pairwise byRecency (loginsList sessions users latest uq)
      ∧ ((latest = some "1" ∨ latest = some "true") →
          (loginsList sessions users latest uq).length ≤ 1) := by
  have hlen : ∀ n : Nat, loginsCap latest ≤ n →
      (loginsList sessions users latest uq).length ≤ n := by
    intro n hn
    calc (loginsList sessions users latest uq).length
        ≤ (loginsCapped sessions latest uq).length := List.length_filter_le _ _
      _ ≤ loginsCap latest := by
          unfold loginsCapped
          rw [List.length_take]
          exact min_le_left _ _
      _ ≤ n := hn
  refine ⟨?_, ?_, ?_⟩
  · refine hlen 200 ?_
    unfold loginsCap
    by_cases h : latest = some "1" ∨ latest = some "true"
    · rw [if_pos h]; omega
    · rw [if_neg h]
  · refine List.Pairwise.sublist ?_ (List.sorted_insertionSort byRecency (loginsBase sessions uq))
    exact (List.filter_sublist _).trans (List.take_sublist _ _)
  · intro h
    refine hlen 1 ?_
    unfold loginsCap
    rw [if_pos h]

theorem logins_list_cap_witness :
    (loginsList [⟨"s1", "bob", some "b@x.com", 5, none⟩,
        ⟨"s2", "bob", some "b@x.com", 3, none⟩]
      [⟨"bob", "b@x.com", true, "active"⟩] (some "1") none).length ≤ 1 :=
  (logins_list_cap [⟨"s1", "bob", some "b@x.com", 5, none⟩,
      ⟨"s2", "bob", some "b@x.com", 3, none⟩]
    [⟨"bob", "b@x.com", true, "active"⟩] (some "1") none).2.2 (Or.inl rfl)

/-! ## DELETE /admin/users/virtual:<name> (adminUsers.js, case-insensitive revision) -/

/-- The anchored case-insensitive regex `^escapeRegex(name)$` built by the
delete handler: after escaping, it matches exactly the strings equal to the
pattern up to ASCII case. -/
def rxMatch (pat field : String) : Bool := lowerS field == lowerS pat

/-- `User.deleteOne({ username: rx })`: remove the first matching user. -/
def removeFirstUser (pat : String) : List URec → List URec
  | [] => []
  | u :: rest => if rxMatch pat u.username then rest else u :: removeFirstUser pat rest

/-- The `virtual:<name>` branch of DELETE /admin/users/:id: reject an empty
trimmed name (400, no change); otherwise upsert the lowercased key into
`DeletedUsername`, delete the matching sessions and ledger entries
(`deleteMany` with the case-insensitive regex), and delete one matching user. -/
def deleteVirtual (st : St) (name : String) : St :=
  let username := trimS name
  if username = "" then st
  else
    let dk := normKey username
    { users := removeFirstUser username st.users
      deleted := if dk ∈ st.deleted then st.deleted else st.deleted ++ [dk]
      entries := st.entries.filter (fun x => !(rxMatch username x.username))
      sessions := st.sessions.filter (fun x => !(rxMatch username x.username)) }

/-- C8: deleting `virtual:<name>` (even with no matching `UserAccount`)
records the lowercased normalized username in the tombstone store;
re-deleting leaves the tombstone store unchanged; and after the deletion, a
new ledger entry whose username normalizes to the same key — any casing —
never produces a synthesized account for it. -/
theorem virtual_delete_tombstone (st : St) (name : String) (e : GameEntry)
    (hn : trimS name ≠ "") (he : normKey e.username = normKey name) :
    normKey name ∈ (deleteVirtual st name).deleted
      ∧ (deleteVirtual (deleteVirtual st name) name).deleted
          = (deleteVirtual st name).deleted
      ∧ ∀ d ∈ synthDocs { deleteVirtual st name with
            entries := (deleteVirtual st name).entries ++ [e] },
          normKey d.username ≠ normKey e.username := by
  have hdk := normKey_trimS name
  have hmem : ∀ s : St, normKey name ∈ (deleteVirtual s name).deleted := by
    intro s
    show normKey name ∈
      (if trimS name = "" then s
       else { users := removeFirstUser (trimS name) s.users
              deleted := if normKey (trimS name) ∈ s.deleted then s.deleted
                else s.deleted ++ [normKey (trimS name)]
              entries := s.entries.filter (fun x => !(rxMatch (trimS name) x.username))
              sessions := s.sessions.filter (fun x => !(rxMatch (trimS name) x.username)) } : St).deleted
    rw [if_neg hn]
    show normKey name ∈
      (if normKey (trimS name) ∈ s.deleted then s.deleted
       else s.deleted ++ [normKey (trimS name)])
    rw [hdk]
    by_cases h : normKey name ∈ s.deleted
    · rw [if_pos h]; exact h
    · rw [if_neg h]
      exact List.mem_append.mpr (Or.inr (List.mem_singleton.mpr rfl))
  have hfix : ∀ s : St, normKey name ∈ s.deleted →
      (deleteVirtual s name).deleted = s.deleted := by
    intro s hs
    show (if trimS name = "" then s
       else { users := removeFirstUser (trimS name) s.users
              deleted := if normKey (trimS name) ∈ s.deleted then s.deleted
                else s.deleted ++ [normKey (trimS name)]
              entries := s.entries.filter (fun x => !(rxMatch (trimS name) x.username))
              sessions := s.sessions.filter (fun x => !(rxMatch (trimS name) x.username)) } : St).deleted
      = s.deleted
    rw [if_neg hn]
    show (if normKey (trimS name) ∈ s.deleted then s.deleted
       else s.deleted ++ [normKey (trimS name)]) = s.deleted
    rw [hdk, if_pos hs]
  refine ⟨hmem st, hfix _ (hmem st), ?_⟩
  intro d hd hcontra
  have hmem2 : normKey name ∈ ({ deleteVirtual st name with
      entries := (deleteVirtual st name).entries ++ [e] } : St).deleted := hmem st
  have hne := synthDocs_avoid_deleted _ (normKey name) hmem2 d hd
  apply hne
  rw [normKey_normKey, ← he]
  exact hcontra

theorem virtual_delete_tombstone_witness :
    normKey "Carol" ∈ (deleteVirtual ⟨[], [], [], []⟩ "Carol").deleted
      ∧ (deleteVirtual (deleteVirtual ⟨[], [], [], []⟩ "Carol") "Carol").deleted
          = (deleteVirtual ⟨[], [], [], []⟩ "Carol").deleted
      ∧ ∀ d ∈ synthDocs { deleteVirtual ⟨[], [], [], []⟩ "Carol" with
            entries := (deleteVirtual ⟨[], [], [], []⟩ "Carol").entries
              ++ [⟨"CAROL", "G1", .deposit, 7, none, "2024-05-01", ""⟩] },
          normKey d.username
            ≠ normKey (⟨"CAROL", "G1", .deposit, 7, none, "2024-05-01", ""⟩ : GameEntry).username :=
  virtual_delete_tombstone ⟨[], [], [], []⟩ "Carol"
    ⟨"CAROL", "G1", .deposit, 7, none, "2024-05-01", ""⟩ (by decide) (by decide)
